import Mathlib

/-!
Verification of the definition-extraction core of the dictionary backend
(`backend/dictionary/index.py`).

Strings are modelled as `List Char`.  The regex operations used by the
source are embedded as executable scanning functions:

* `stripTags`   models `re.sub(r'<[^>]+>', '', s)`
* `collapseWS`  models `re.sub(r'\s+', ' ', s)` (ASCII whitespace set)
* `stripList`   models Python `str.strip()`
* `splitGlyph`  models Python `str.split(sep)` for a one-character separator
* `sectionContent` models `re.search(r'<section[^>]*data-mw-section-id="1"[^>]*>(.*?)</section>', html, re.DOTALL)` (group 1)
* `findAllBetweenF` models `re.findall(r'<ol>(.*?)</ol>', s, re.DOTALL)`-style scans with literal open/close delimiters
* `findAllTagF` models `re.findall(r'<li[^>]*>(.*?)</li>', s, re.DOTALL)`-style
  scans whose opening delimiter is a literal prefix followed by attribute
  characters up to the next `>`
-/

/-- ASCII whitespace as matched by `\s` on the inputs of interest. -/
def isWS (c : Char) : Bool :=
  c == ' ' || c == '\t' || c == '\n' || c == '\r' || c == '\x0b' || c == '\x0c'

/-- Scanner state machine for `re.sub(r'<[^>]+>', '', s)`.
`pending = some buf` means we are inside a candidate tag that opened with
`<`; `buf` holds (reversed) the non-`>` characters read since then.
A candidate closes as a tag at the first `>` provided at least one body
character was read (the regex body `[^>]+` is non-empty); a bare `<>` and
an unclosed `<...` are emitted unchanged, exactly as the regex leaves them. -/
def stGo : List Char → Option (List Char) → List Char
  | [], none => []
  | [], some buf => '<' :: buf.reverse
  | c :: rest, none =>
    if c = '<' then stGo rest (some []) else c :: stGo rest none
  | c :: rest, some buf =>
    if c = '>' then
      if buf = [] then '<' :: '>' :: stGo rest none
      else stGo rest none
    else stGo rest (some (c :: buf))

/-- `re.sub(r'<[^>]+>', '', s)`. -/
def stripTags (l : List Char) : List Char := stGo l none

/-- Scanner for `re.sub(r'\s+', ' ', s)`: `prevWS` records whether the
previous input character was whitespace (in which case the single `' '`
replacing the current run has already been emitted). -/
def cwGo : List Char → Bool → List Char
  | [], _ => []
  | c :: rest, prevWS =>
    if isWS c then
      if prevWS then cwGo rest true else ' ' :: cwGo rest true
    else c :: cwGo rest false

/-- `re.sub(r'\s+', ' ', s)`. -/
def collapseWS (l : List Char) : List Char := cwGo l false

/-- Python `str.strip()`. -/
def stripList (l : List Char) : List Char :=
  ((l.dropWhile isWS).reverse.dropWhile isWS).reverse

/-- Python `str.split(sep)` for a single-character separator: always returns
at least one (possibly empty) segment. -/
def splitGlyph (sep : Char) : List Char → List (List Char)
  | [] => [[]]
  | c :: rest =>
    if c = sep then [] :: splitGlyph sep rest
    else (c :: (splitGlyph sep rest).headI) :: (splitGlyph sep rest).tail

/-- Split `l` around the first occurrence of the literal `pat`
(`none` when absent): returns the part before and the part after. -/
def splitOnce (pat : List Char) : List Char → Option (List Char × List Char)
  | [] => none
  | c :: rest =>
    if pat.isPrefixOf (c :: rest) then some ([], (c :: rest).drop pat.length)
    else
      match splitOnce pat rest with
      | some (pre, post) => some (c :: pre, post)
      | none => none

/-- Does the literal `pat` occur (contiguously) in `l`? -/
def containsPat (pat : List Char) : List Char → Bool
  | [] => pat.isPrefixOf ([] : List Char)
  | c :: rest => pat.isPrefixOf (c :: rest) || containsPat pat rest

/-- One extracted definition, as built by `parse_definitions`
(the dict `{'id': ..., 'meaning': ..., 'partOfSpeech': ..., 'examples': ...}`). -/
structure DefinitionRecord where
  id : Nat
  meaning : List Char
  partOfSpeech : List Char
  examples : List (List Char)
deriving Repr, DecidableEq

/-- Group 1 of `re.search(r'<section[^>]*data-mw-section-id="1"[^>]*>(.*?)</section>', html, re.DOTALL)`,
opening-tag part: scan for the first `<section` occurrence whose attribute
characters (everything up to the next `>`, which is what `[^>]*` can cover)
contain the literal `data-mw-section-id="1"`; return the text after that `>`.
The fuel argument only bounds the number of `<section` occurrences tried and
is instantiated with the length of the scanned text, which always suffices. -/
def findSecOpenF : Nat → List Char → Option (List Char)
  | 0, _ => none
  | fuel + 1, l =>
    match splitOnce "<section".toList l with
    | none => none
    | some (_, rest) =>
      match rest.dropWhile (fun c => c != '>') with
      | [] => none
      | _ :: afterGt =>
        if containsPat "data-mw-section-id=\"1\"".toList (rest.takeWhile (fun c => c != '>'))
        then some afterGt
        else findSecOpenF fuel rest

/-- Group 1 of the section search: the text strictly between the matched
opening tag and the first later `</section>` (the non-greedy `(.*?)`). -/
def sectionContent (html : List Char) : Option (List Char) :=
  match findSecOpenF html.length html with
  | none => none
  | some rest => (splitOnce "</section>".toList rest).map Prod.fst

/-- `re.findall` for a pattern `openLit(.*?)closeLit` made of two literals
(used for `<ol>(.*?)</ol>`): repeatedly take the first `openLit`, capture up
to the first later `closeLit`, continue after it.  Fuel is instantiated with
the length of the scanned text, which always suffices. -/
def findAllBetweenF (openLit closeLit : List Char) : Nat → List Char → List (List Char)
  | 0, _ => []
  | fuel + 1, l =>
    match splitOnce openLit l with
    | none => []
    | some (_, rest) =>
      match splitOnce closeLit rest with
      | none => []
      | some (content, rest2) => content :: findAllBetweenF openLit closeLit fuel rest2

/-- `re.findall` for a pattern `openPre[^>]*>(.*?)closeLit`
(used for `<li[^>]*>(.*?)</li>` and `<p[^>]*>(.*?)</p>`): the opening
delimiter is the literal `openPre` followed by everything up to and
including the next `>`. -/
def findAllTagF (openPre closeLit : List Char) : Nat → List Char → List (List Char)
  | 0, _ => []
  | fuel + 1, l =>
    match splitOnce openPre l with
    | none => []
    | some (_, rest) =>
      match rest.dropWhile (fun c => c != '>') with
      | [] => []
      | _ :: afterGt =>
        match splitOnce closeLit afterGt with
        | none => []
        | some (content, rest2) => content :: findAllTagF openPre closeLit fuel rest2

/-- The cleaning applied to each candidate block:
`re.sub(r'<[^>]+>', '', x)` then `re.sub(r'\s+', ' ', x).strip()`. -/
def cleanItem (s : List Char) : List Char := stripList (collapseWS (stripTags s))

/-- The filter of the examples comprehension:
`if ex.strip() and len(ex.strip()) > 5` (applied to the stripped segment). -/
def exOK (e : List Char) : Bool := !e.isEmpty && decide (5 < e.length)

/-- Build the record appended for a qualifying list item from its cleaned
text: split on `◆`, the first segment (stripped) is the meaning, later
segments (stripped, non-empty, longer than 5) are examples, capped at 2;
`partOfSpeech` is the fixed label. -/
def mkRecord (def_id : Nat) (clean_text : List Char) : DefinitionRecord :=
  { id := def_id
    meaning := stripList (splitGlyph '◆' clean_text).headI
    partOfSpeech := "определение".toList
    examples := ((((splitGlyph '◆' clean_text).tail).map stripList).filter exOK).take 2 }

/-- The body of the inner `for li_content in li_items[:5]` loop: clean the
item, and when its cleaned length is strictly between 10 and 500 append a
record and advance the id counter. -/
def processLi (acc : List DefinitionRecord × Nat) (li_content : List Char) :
    List DefinitionRecord × Nat :=
  if 10 < (cleanItem li_content).length ∧ (cleanItem li_content).length < 500 then
    (acc.1 ++ [mkRecord acc.2 (cleanItem li_content)], acc.2 + 1)
  else acc

/-- The list items scanned by the primary path inside the section content:
the first 5 `<li...>` items of each of the first 3 `<ol>` blocks, in order. -/
def itemsOf (sec : List Char) : List (List Char) :=
  ((findAllBetweenF "<ol>".toList "</ol>".toList sec.length sec).take 3).flatMap
    (fun ol => (findAllTagF "<li".toList "</li>".toList ol.length ol).take 5)

/-- The primary (section-1) path: the accumulated `definitions` list and the
final `def_id` counter after the nested loops (`([], 1)` when the section
search fails). -/
def primaryPass (html : List Char) : List DefinitionRecord × Nat :=
  match sectionContent html with
  | none => ([], 1)
  | some sec => (itemsOf sec).foldl processLi ([], 1)

/-- `re.findall(r'<p[^>]*>(.*?)</p>', html, re.DOTALL)`. -/
def pBlocks (html : List Char) : List (List Char) :=
  findAllTagF "<p".toList "</p>".toList html.length html

/-- The fallback loop over `p_tags[:3]`: accept the first block whose
cleaned length is strictly between 30 and 300 as a single record (empty
part of speech, no examples) and stop. -/
def fallbackScan (def_id : Nat) : List (List Char) → List DefinitionRecord
  | [] => []
  | p :: rest =>
    if 30 < (cleanItem p).length ∧ (cleanItem p).length < 300 then
      [{ id := def_id, meaning := cleanItem p, partOfSpeech := [], examples := [] }]
    else fallbackScan def_id rest

/-- `parse_definitions(html, word)` from `backend/dictionary/index.py`:
primary section-1 path, fallback paragraph path when it produced nothing,
final truncation to 10 records.  The `word` argument is unused, as in the
source. -/
def parse_definitions (html word : List Char) : List DefinitionRecord :=
  let res := primaryPass html
  let defs :=
    if res.1 = [] then fallbackScan res.2 ((pBlocks html).take 3) else res.1
  defs.take 10

/-- The HTTP fetch outcome seen by the handler (the `urlopen` block either
yields the decoded body or raises with a message). -/
inductive FetchOutcome where
  | success (html : List Char)
  | failure (msg : List Char)
deriving Repr, DecidableEq

/-- The JSON body of a handler response: empty (OPTIONS), an
`{'error': ...}` object, or the success `{'word': ..., 'definitions': ...}`
object. -/
inductive ResponseBody where
  | empty : ResponseBody
  | err : List Char → ResponseBody
  | payload : List Char → List DefinitionRecord → ResponseBody
deriving Repr, DecidableEq

/-- A handler response: status code and body. -/
structure Response where
  statusCode : Nat
  body : ResponseBody
deriving Repr, DecidableEq

/-- `handler(event, context)` from `backend/dictionary/index.py`, with the
event abstracted to its method and `word` query parameter and the network
fetch abstracted to its outcome. -/
def handler (method : List Char) (wordParam : Option (List Char))
    (fetch : FetchOutcome) : Response :=
  if method = "OPTIONS".toList then ⟨200, ResponseBody.empty⟩
  else if method ≠ "GET".toList then
    ⟨405, ResponseBody.err "Method not allowed".toList⟩
  else if stripList (wordParam.getD []) = [] then
    ⟨400, ResponseBody.err "Параметр word обязателен".toList⟩
  else
    match fetch with
    | FetchOutcome.failure e =>
      ⟨500, ResponseBody.err ("Ошибка при получении данных: ".toList ++ e)⟩
    | FetchOutcome.success html =>
      if parse_definitions html (stripList (wordParam.getD [])) = [] then
        ⟨404, ResponseBody.err "Слово не найдено".toList⟩
      else
        ⟨200, ResponseBody.payload (stripList (wordParam.getD []))
          (parse_definitions html (stripList (wordParam.getD [])))⟩

/-- No `>` occurs in `l`. -/
def noGt (l : List Char) : Bool := l.all (fun c => c != '>')

/-- Per-position tag-freeness condition: a `<` here is harmless when either
no `>` follows it at all or the very next character is `>` (a bare `<>`,
which the regex `<[^>]+>` does not match). -/
def gtCond (c : Char) (rest : List Char) : Bool :=
  (c != '<') || noGt rest || (rest.head? == some '>')

/-- Every `<` in `l` is immediately followed by `>` or has no `>` after it:
the shape of text left by `re.sub(r'<[^>]+>', '', ·)`. -/
def goodTags : List Char → Bool
  | [] => true
  | c :: rest => gtCond c rest && goodTags rest

/-- Per-position collapsed-whitespace condition: a whitespace character must
be a plain space and must not be followed by another whitespace character. -/
def wsCond (c : Char) (rest : List Char) : Bool :=
  (!(isWS c) || (c == ' ')) &&
    (match rest.head? with
     | none => true
     | some d => !(isWS c && isWS d))

/-- All whitespace in `l` consists of isolated single spaces: the shape of
text left by `re.sub(r'\s+', ' ', ·)`. -/
def wsOK : List Char → Bool
  | [] => true
  | c :: rest => wsCond c rest && wsOK rest

/-- "Stripped of markup tags": no contiguous substring of the form
`<` + non-empty `>`-free body + `>` (the shape matched by `<[^>]+>`). -/
def TagFree (l : List Char) : Prop :=
  ∀ m : List Char, m ≠ [] → (∀ c ∈ m, c ≠ '>') →
    ¬ List.IsInfix ('<' :: (m ++ ['>'])) l

/-- "Collapsed whitespace": all whitespace characters are plain spaces and
no two consecutive characters are both whitespace. -/
def SpaceCollapsed (l : List Char) : Prop :=
  (∀ c ∈ l, isWS c = true → c = ' ') ∧ ¬ List.IsInfix [' ', ' '] l

/-- Primary-path length filter, as a Boolean predicate on cleaned text. -/
def qLen (c : List Char) : Bool := decide (10 < c.length ∧ c.length < 500)

/-- Number of qualifying items in a scanned item list. -/
def countQ (items : List (List Char)) : Nat :=
  ((items.map cleanItem).filter qLen).length

/-- The list items the primary path actually examines. -/
def consideredItems (html : List Char) : List (List Char) :=
  match sectionContent html with
  | none => []
  | some sec => itemsOf sec

/-- Number of examined list items that pass the primary length filter. -/
def qualifyingCount (html : List Char) : Nat := countQ (consideredItems html)

theorem noGt_iff (l : List Char) : noGt l = true ↔ ∀ c ∈ l, c ≠ '>' := by
  simp [noGt, List.all_eq_true]

theorem goodTags_of_noGt (l : List Char) (h : noGt l = true) : goodTags l = true := by
  induction l with
  | nil => rfl
  | cons c rest ih =>
    rw [noGt_iff] at h
    have hrest : noGt rest = true := (noGt_iff rest).mpr fun d hd => h d (List.mem_cons_of_mem _ hd)
    simp only [goodTags, gtCond, hrest, Bool.and_eq_true, Bool.or_eq_true]
    exact ⟨Or.inl (Or.inr trivial), ih hrest⟩

theorem goodTags_cons (c : Char) (rest : List Char) :
    goodTags (c :: rest) = (gtCond c rest && goodTags rest) := rfl

theorem goodTags_stGo (l : List Char) :
    goodTags (stGo l none) = true ∧
      ∀ buf, noGt buf = true → goodTags (stGo l (some buf)) = true := by
  induction l with
  | nil =>
    refine ⟨rfl, fun buf hbuf => ?_⟩
    have hrev : noGt buf.reverse = true := by
      rw [noGt_iff] at hbuf ⊢
      intro c hc
      exact hbuf c (List.mem_reverse.mp hc)
    show goodTags ('<' :: buf.reverse) = true
    simp only [goodTags_cons, gtCond, hrev, Bool.and_eq_true, Bool.or_eq_true]
    exact ⟨Or.inl (Or.inr trivial), goodTags_of_noGt _ hrev⟩
  | cons c rest ih =>
    constructor
    · show goodTags (if c = '<' then stGo rest (some []) else c :: stGo rest none) = true
      by_cases hc : c = '<'
      · rw [if_pos hc]
        exact ih.2 [] rfl
      · rw [if_neg hc]
        simp only [goodTags_cons, gtCond, Bool.and_eq_true, Bool.or_eq_true]
        exact ⟨Or.inl (Or.inl (bne_iff_ne.mpr hc)), ih.1⟩
    · intro buf hbuf
      show goodTags
        (if c = '>' then
          (if buf = [] then '<' :: '>' :: stGo rest none else stGo rest none)
         else stGo rest (some (c :: buf))) = true
      by_cases hc : c = '>'
      · rw [if_pos hc]
        by_cases hb : buf = []
        · rw [if_pos hb]
          simp only [goodTags_cons, gtCond, Bool.and_eq_true, Bool.or_eq_true]
          refine ⟨Or.inr ?_, Or.inl (Or.inl (by decide)), ih.1⟩
          simp
        · rw [if_neg hb]; exact ih.1
      · rw [if_neg hc]
        refine ih.2 (c :: buf) ?_
        rw [noGt_iff] at hbuf ⊢
        intro d hd
        rcases List.mem_cons.mp hd with h1 | h2
        · exact h1 ▸ hc
        · exact hbuf d h2

theorem goodTags_stripTags (l : List Char) : goodTags (stripTags l) = true :=
  (goodTags_stGo l).1

theorem noGt_cwGo (l : List Char) : ∀ b, noGt l = true → noGt (cwGo l b) = true := by
  induction l with
  | nil => intro b _; rfl
  | cons c rest ih =>
    intro b h
    rw [noGt_iff] at h
    have hrest : noGt rest = true :=
      (noGt_iff rest).mpr fun d hd => h d (List.mem_cons_of_mem _ hd)
    show noGt (if isWS c then (if b then cwGo rest true else ' ' :: cwGo rest true)
      else c :: cwGo rest false) = true
    by_cases hws : isWS c = true
    · rw [if_pos hws]
      cases b with
      | true => exact ih true hrest
      | false =>
        rw [if_neg (by simp)]
        rw [noGt_iff]
        intro d hd
        rcases List.mem_cons.mp hd with h1 | h2
        · rw [h1]; decide
        · exact (noGt_iff _).mp (ih true hrest) d h2
    · rw [if_neg hws]
      rw [noGt_iff]
      intro d hd
      rcases List.mem_cons.mp hd with h1 | h2
      · exact h1 ▸ h c (List.mem_cons_self c rest)
      · exact (noGt_iff _).mp (ih false hrest) d h2

theorem goodTags_cwGo (l : List Char) : ∀ b, goodTags l = true → goodTags (cwGo l b) = true := by
  induction l with
  | nil => intro b _; rfl
  | cons c rest ih =>
    intro b h
    rw [goodTags_cons, Bool.and_eq_true] at h
    obtain ⟨hcond, hrest⟩ := h
    show goodTags (if isWS c then (if b then cwGo rest true else ' ' :: cwGo rest true)
      else c :: cwGo rest false) = true
    by_cases hws : isWS c = true
    · rw [if_pos hws]
      cases b with
      | true => exact ih true hrest
      | false =>
        rw [if_neg (by simp)]
        rw [goodTags_cons, Bool.and_eq_true]
        refine ⟨?_, ih true hrest⟩
        simp only [gtCond, Bool.or_eq_true]
        exact Or.inl (Or.inl (by decide))
    · rw [if_neg hws]
      rw [goodTags_cons, Bool.and_eq_true]
      refine ⟨?_, ih false hrest⟩
      simp only [gtCond, Bool.or_eq_true] at hcond ⊢
      rcases hcond with (hne | hngt) | hhead
      · exact Or.inl (Or.inl hne)
      · exact Or.inl (Or.inr (noGt_cwGo rest false hngt))
      · right
        cases rest with
        | nil => simp at hhead
        | cons d rest' =>
          simp only [List.head?_cons, Option.some.injEq, beq_iff_eq] at hhead
          have hdws : isWS d = false := by rw [hhead]; decide
          show ((cwGo (d :: rest') false).head? == some '>') = true
          show (((if isWS d then (if false then cwGo rest' true else ' ' :: cwGo rest' true)
            else d :: cwGo rest' false)).head? == some '>') = true
          rw [if_neg (by simp [hdws])]
          simp [hhead]

theorem cwGo_true_head (l : List Char) :
    ∀ c, (cwGo l true).head? = some c → isWS c = false := by
  induction l with
  | nil => intro c h; simp [cwGo] at h
  | cons d rest ih =>
    intro c h
    by_cases hws : isWS d = true
    · have : cwGo (d :: rest) true = cwGo rest true := by
        show (if isWS d then (if true then cwGo rest true else ' ' :: cwGo rest true)
          else d :: cwGo rest false) = cwGo rest true
        rw [if_pos hws]
        simp
      rw [this] at h
      exact ih c h
    · have : cwGo (d :: rest) true = d :: cwGo rest false := by
        show (if isWS d then (if true then cwGo rest true else ' ' :: cwGo rest true)
          else d :: cwGo rest false) = d :: cwGo rest false
        rw [if_neg hws]
      rw [this] at h
      simp only [List.head?_cons, Option.some.injEq] at h
      exact Bool.eq_false_iff.mpr (h ▸ hws)

theorem wsOK_cons (c : Char) (rest : List Char) :
    wsOK (c :: rest) = (wsCond c rest && wsOK rest) := rfl

theorem wsOK_cwGo (l : List Char) : ∀ b, wsOK (cwGo l b) = true := by
  induction l with
  | nil => intro b; rfl
  | cons c rest ih =>
    intro b
    show wsOK (if isWS c then (if b then cwGo rest true else ' ' :: cwGo rest true)
      else c :: cwGo rest false) = true
    by_cases hws : isWS c = true
    · rw [if_pos hws]
      cases b with
      | true => exact ih true
      | false =>
        rw [if_neg (by simp)]
        rw [wsOK_cons, Bool.and_eq_true]
        refine ⟨?_, ih true⟩
        simp only [wsCond, Bool.and_eq_true]
        constructor
        · decide
        · cases hh : (cwGo rest true).head? with
          | none => simp
          | some d =>
            have := cwGo_true_head rest d hh
            simp [this]
    · rw [if_neg hws]
      rw [wsOK_cons, Bool.and_eq_true]
      refine ⟨?_, ih false⟩
      simp only [wsCond, Bool.and_eq_true]
      constructor
      · simp [hws]
      · cases hh : (cwGo rest false).head? with
        | none => simp
        | some d => simp [hws]

theorem wsOK_collapseWS (l : List Char) : wsOK (collapseWS l) = true := wsOK_cwGo l false

theorem goodTags_append (a b : List Char) (h : goodTags (a ++ b) = true) :
    goodTags a = true ∧ goodTags b = true := by
  induction a with
  | nil => exact ⟨rfl, h⟩
  | cons c a' ih =>
    rw [List.cons_append, goodTags_cons, Bool.and_eq_true] at h
    obtain ⟨hcond, htail⟩ := h
    obtain ⟨ha', hb⟩ := ih htail
    refine ⟨?_, hb⟩
    rw [goodTags_cons, Bool.and_eq_true]
    refine ⟨?_, ha'⟩
    simp only [gtCond, Bool.or_eq_true] at hcond ⊢
    rcases hcond with (hne | hngt) | hhead
    · exact Or.inl (Or.inl hne)
    · rw [noGt_iff] at hngt
      exact Or.inl (Or.inr ((noGt_iff a').mpr
        fun d hd => hngt d (List.mem_append.mpr (Or.inl hd))))
    · cases a' with
      | nil => exact Or.inl (Or.inr rfl)
      | cons d a'' => exact Or.inr (by simpa using hhead)

theorem wsOK_append (a b : List Char) (h : wsOK (a ++ b) = true) :
    wsOK a = true ∧ wsOK b = true := by
  induction a with
  | nil => exact ⟨rfl, h⟩
  | cons c a' ih =>
    rw [List.cons_append, wsOK_cons, Bool.and_eq_true] at h
    obtain ⟨hcond, htail⟩ := h
    obtain ⟨ha', hb⟩ := ih htail
    refine ⟨?_, hb⟩
    rw [wsOK_cons, Bool.and_eq_true]
    refine ⟨?_, ha'⟩
    simp only [wsCond, Bool.and_eq_true] at hcond ⊢
    refine ⟨hcond.1, ?_⟩
    cases a' with
    | nil => simp
    | cons d a'' => simpa using hcond.2

theorem goodTags_isInfix {m l : List Char} (h : List.IsInfix m l)
    (hl : goodTags l = true) : goodTags m = true := by
  obtain ⟨s, t, rfl⟩ := h
  rw [List.append_assoc] at hl
  exact (goodTags_append m t (goodTags_append s (m ++ t) hl).2).1

theorem wsOK_isInfix {m l : List Char} (h : List.IsInfix m l)
    (hl : wsOK l = true) : wsOK m = true := by
  obtain ⟨s, t, rfl⟩ := h
  rw [List.append_assoc] at hl
  exact (wsOK_append m t (wsOK_append s (m ++ t) hl).2).1

theorem stripList_isInfix (l : List Char) : List.IsInfix (stripList l) l := by
  have h1 : List.IsSuffix (l.dropWhile isWS) l := List.dropWhile_suffix isWS
  have h2 : List.IsSuffix ((l.dropWhile isWS).reverse.dropWhile isWS)
      (l.dropWhile isWS).reverse := List.dropWhile_suffix isWS
  have h3 : List.IsPrefix (stripList l) (l.dropWhile isWS) := by
    rw [← List.reverse_suffix]
    simpa [stripList] using h2
  exact h3.isInfix.trans h1.isInfix

theorem splitGlyph_ne_nil (sep : Char) (l : List Char) : splitGlyph sep l ≠ [] := by
  cases l with
  | nil => exact List.cons_ne_nil _ _
  | cons c rest =>
    show (if c = sep then [] :: splitGlyph sep rest
      else (c :: (splitGlyph sep rest).headI) :: (splitGlyph sep rest).tail) ≠ []
    by_cases hc : c = sep
    · rw [if_pos hc]; exact List.cons_ne_nil _ _
    · rw [if_neg hc]; exact List.cons_ne_nil _ _

theorem splitGlyph_headI_isPrefix (sep : Char) (l : List Char) :
    List.IsPrefix (splitGlyph sep l).headI l := by
  induction l with
  | nil => exact ⟨[], rfl⟩
  | cons c rest ih =>
    show List.IsPrefix (if c = sep then [] :: splitGlyph sep rest
      else (c :: (splitGlyph sep rest).headI) :: (splitGlyph sep rest).tail).headI (c :: rest)
    by_cases hc : c = sep
    · rw [if_pos hc]
      exact ⟨c :: rest, rfl⟩
    · rw [if_neg hc]
      obtain ⟨t, ht⟩ := ih
      exact ⟨t, show c :: ((splitGlyph sep rest).headI ++ t) = c :: rest from by rw [ht]⟩

theorem tagFree_of_goodTags {l : List Char} (h : goodTags l = true) : TagFree l := by
  intro m hm hmgt hinf
  have hgt : goodTags ('<' :: (m ++ ['>'])) = true := goodTags_isInfix hinf h
  rw [goodTags_cons, Bool.and_eq_true] at hgt
  have hcond := hgt.1
  simp only [gtCond, Bool.or_eq_true] at hcond
  rcases hcond with (hne | hngt) | hhead
  · simp at hne
  · rw [noGt_iff] at hngt
    exact absurd rfl (hngt '>' (List.mem_append.mpr (Or.inr (List.mem_singleton.mpr rfl))))
  · cases m with
    | nil => exact hm rfl
    | cons d m' =>
      simp only [List.cons_append, List.head?_cons, Option.some.injEq, beq_iff_eq] at hhead
      exact hmgt d (List.mem_cons_self d m') hhead

theorem wsOK_mem_space {l : List Char} (h : wsOK l = true) :
    ∀ c ∈ l, isWS c = true → c = ' ' := by
  induction l with
  | nil => intro c hc; exact absurd hc (List.not_mem_nil c)
  | cons d rest ih =>
    intro c hc hws
    rw [wsOK_cons, Bool.and_eq_true] at h
    rcases List.mem_cons.mp hc with h1 | h2
    · have := h.1
      simp only [wsCond, Bool.and_eq_true, Bool.or_eq_true] at this
      rcases this.1 with hnot | hsp
      · rw [h1] at hws
        simp [hws] at hnot
      · rw [h1]
        exact beq_iff_eq.mp hsp
    · exact ih h.2 c h2 hws

theorem spaceCollapsed_of_wsOK {l : List Char} (h : wsOK l = true) : SpaceCollapsed l := by
  refine ⟨wsOK_mem_space h, fun hinf => ?_⟩
  have h2 : wsOK ([' ', ' '] : List Char) = true := wsOK_isInfix hinf h
  simp [wsOK, wsCond, isWS] at h2

theorem goodTags_cleanItem (s : List Char) : goodTags (cleanItem s) = true :=
  goodTags_isInfix (stripList_isInfix _) (goodTags_cwGo _ false (goodTags_stripTags s))

theorem wsOK_cleanItem (s : List Char) : wsOK (cleanItem s) = true :=
  wsOK_isInfix (stripList_isInfix _) (wsOK_cwGo _ false)

theorem goodTags_mkRecord_meaning (def_id : Nat) (c : List Char)
    (hg : goodTags c = true) (hw : wsOK c = true) :
    goodTags (mkRecord def_id c).meaning = true ∧ wsOK (mkRecord def_id c).meaning = true := by
  have hpre : List.IsInfix (splitGlyph '◆' c).headI c :=
    (splitGlyph_headI_isPrefix '◆' c).isInfix
  have hinf : List.IsInfix (mkRecord def_id c).meaning c :=
    (stripList_isInfix (splitGlyph '◆' c).headI).trans hpre
  exact ⟨goodTags_isInfix hinf hg, wsOK_isInfix hinf hw⟩

theorem mem_foldl_processLi (items : List (List Char)) :
    ∀ (defs : List DefinitionRecord) (def_id : Nat) (r : DefinitionRecord),
      r ∈ (items.foldl processLi (defs, def_id)).1 →
        r ∈ defs ∨ ∃ item ∈ items, ∃ k, r = mkRecord k (cleanItem item) := by
  induction items with
  | nil => intro defs def_id r h; exact Or.inl h
  | cons item rest ih =>
    intro defs def_id r h
    rw [List.foldl_cons] at h
    by_cases hc : 10 < (cleanItem item).length ∧ (cleanItem item).length < 500
    · rw [show processLi (defs, def_id) item =
        (defs ++ [mkRecord def_id (cleanItem item)], def_id + 1) from by
          simp [processLi, hc]] at h
      rcases ih _ _ r h with hmem | ⟨item', hi', k, hk⟩
      · rcases List.mem_append.mp hmem with h1 | h2
        · exact Or.inl h1
        · exact Or.inr ⟨item, List.mem_cons_self item rest, def_id,
            (List.mem_singleton.mp h2)⟩
      · exact Or.inr ⟨item', List.mem_cons_of_mem _ hi', k, hk⟩
    · rw [show processLi (defs, def_id) item = (defs, def_id) from by
        simp [processLi, hc]] at h
      rcases ih _ _ r h with hmem | ⟨item', hi', k, hk⟩
      · exact Or.inl hmem
      · exact Or.inr ⟨item', List.mem_cons_of_mem _ hi', k, hk⟩

theorem mem_fallbackScan (ps : List (List Char)) :
    ∀ (def_id : Nat) (r : DefinitionRecord), r ∈ fallbackScan def_id ps →
      ∃ p ∈ ps, r = DefinitionRecord.mk def_id (cleanItem p) [] [] := by
  induction ps with
  | nil => intro def_id r h; exact absurd h (List.not_mem_nil r)
  | cons p rest ih =>
    intro def_id r h
    by_cases hc : 30 < (cleanItem p).length ∧ (cleanItem p).length < 300
    · rw [show fallbackScan def_id (p :: rest) =
        [DefinitionRecord.mk def_id (cleanItem p) [] []] from by
          simp [fallbackScan, hc]] at h
      exact ⟨p, List.mem_cons_self p rest, List.mem_singleton.mp h⟩
    · rw [show fallbackScan def_id (p :: rest) = fallbackScan def_id rest from by
        simp [fallbackScan, hc]] at h
      obtain ⟨p', hp', hr⟩ := ih def_id r h
      exact ⟨p', List.mem_cons_of_mem _ hp', hr⟩

theorem mem_parse_shape (html w : List Char) (r : DefinitionRecord)
    (h : r ∈ parse_definitions html w) :
    (∃ k item, r = mkRecord k (cleanItem item)) ∨
      (∃ k p, r = DefinitionRecord.mk k (cleanItem p) [] []) := by
  unfold parse_definitions at h
  have h' := (List.take_sublist 10 _).subset h
  by_cases hp : (primaryPass html).1 = []
  · rw [if_pos hp] at h'
    obtain ⟨p, _, hr⟩ := mem_fallbackScan _ _ r h'
    exact Or.inr ⟨(primaryPass html).2, p, hr⟩
  · rw [if_neg hp] at h'
    unfold primaryPass at h'
    cases hs : sectionContent html with
    | none =>
      rw [hs] at h'
      exact absurd h' (List.not_mem_nil r)
    | some sec =>
      rw [hs] at h'
      rcases mem_foldl_processLi _ _ _ r h' with hmem | ⟨item, _, k, hk⟩
      · exact absurd hmem (List.not_mem_nil r)
      · exact Or.inl ⟨k, item, hk⟩

theorem parse_meaning_clean (html w : List Char) (r : DefinitionRecord)
    (h : r ∈ parse_definitions html w) :
    goodTags r.meaning = true ∧ wsOK r.meaning = true := by
  rcases mem_parse_shape html w r h with ⟨k, item, hk⟩ | ⟨k, p, hk⟩
  · rw [hk]
    exact goodTags_mkRecord_meaning k _ (goodTags_cleanItem item) (wsOK_cleanItem item)
  · rw [hk]
    exact ⟨goodTags_cleanItem p, wsOK_cleanItem p⟩

theorem foldl_processLi_spec (items : List (List Char)) :
    ∀ (defs : List DefinitionRecord) (def_id : Nat),
      (items.foldl processLi (defs, def_id)).1.length = defs.length + countQ items ∧
        (items.foldl processLi (defs, def_id)).2 = def_id + countQ items := by
  induction items with
  | nil =>
    intro defs def_id
    simp [countQ]
  | cons item rest ih =>
    intro defs def_id
    rw [List.foldl_cons]
    by_cases hc : 10 < (cleanItem item).length ∧ (cleanItem item).length < 500
    · rw [show processLi (defs, def_id) item =
        (defs ++ [mkRecord def_id (cleanItem item)], def_id + 1) from by
          simp [processLi, hc]]
      obtain ⟨h1, h2⟩ := ih (defs ++ [mkRecord def_id (cleanItem item)]) (def_id + 1)
      have hq : qLen (cleanItem item) = true := decide_eq_true hc
      have hcount : countQ (item :: rest) = countQ rest + 1 := by
        simp [countQ, List.filter_cons, hq]
      constructor
      · rw [h1, hcount, List.length_append]
        simp
        omega
      · rw [h2, hcount]
        omega
    · rw [show processLi (defs, def_id) item = (defs, def_id) from by
        simp [processLi, hc]]
      obtain ⟨h1, h2⟩ := ih defs def_id
      have hq : qLen (cleanItem item) = false := decide_eq_false hc
      have hcount : countQ (item :: rest) = countQ rest := by
        simp [countQ, List.filter_cons, hq]
      exact ⟨by rw [h1, hcount], by rw [h2, hcount]⟩

theorem primaryPass_length (html : List Char) :
    (primaryPass html).1.length = qualifyingCount html := by
  unfold primaryPass qualifyingCount consideredItems
  cases hs : sectionContent html with
  | none => simp [countQ]
  | some sec =>
    have := (foldl_processLi_spec (itemsOf sec) [] 1).1
    simpa using this

theorem primaryPass_empty_id (html : List Char) (h : (primaryPass html).1 = []) :
    (primaryPass html).2 = 1 := by
  have hlen : (primaryPass html).1.length = 0 := by rw [h]; rfl
  rw [primaryPass_length] at hlen
  unfold primaryPass
  cases hs : sectionContent html with
  | none => rfl
  | some sec =>
    have hq : countQ (itemsOf sec) = 0 := by
      have : qualifyingCount html = countQ (itemsOf sec) := by
        unfold qualifyingCount consideredItems
        rw [hs]
      rw [← this, hlen]
    have := (foldl_processLi_spec (itemsOf sec) [] 1).2
    rw [hq] at this
    simpa using this

theorem fallbackScan_eq_find (ps : List (List Char)) (def_id : Nat) :
    fallbackScan def_id ps =
      (((ps.map cleanItem).find?
          (fun c => decide (30 < c.length ∧ c.length < 300))).elim []
        (fun c => [DefinitionRecord.mk def_id c [] []])) := by
  induction ps with
  | nil => rfl
  | cons p rest ih =>
    by_cases hc : 30 < (cleanItem p).length ∧ (cleanItem p).length < 300
    · rw [show fallbackScan def_id (p :: rest) =
        [DefinitionRecord.mk def_id (cleanItem p) [] []] from by
          simp [fallbackScan, hc]]
      have hfind : List.find? (fun c => decide (30 < c.length ∧ c.length < 300))
          (cleanItem p :: List.map cleanItem rest) = some (cleanItem p) :=
        List.find?_cons_of_pos _ (by simpa using hc)
      rw [List.map_cons, hfind]
      rfl
    · rw [show fallbackScan def_id (p :: rest) = fallbackScan def_id rest from by
        simp [fallbackScan, hc]]
      have hfind : List.find? (fun c => decide (30 < c.length ∧ c.length < 300))
          (cleanItem p :: List.map cleanItem rest) =
          List.find? (fun c => decide (30 < c.length ∧ c.length < 300))
            (List.map cleanItem rest) :=
        List.find?_cons_of_neg _ (by simpa using hc)
      rw [List.map_cons, hfind]
      exact ih

theorem take_bind_length_le (g : List Char → List (List Char))
    (hg : ∀ x, (g x).length ≤ 5) :
    ∀ (n : Nat) (ls : List (List Char)), ((ls.take n).flatMap g).length ≤ n * 5 := by
  intro n
  induction n with
  | zero => intro ls; simp
  | succ m ih =>
    intro ls
    cases ls with
    | nil => simp
    | cons x ls' =>
      rw [List.take_succ_cons, List.flatMap_cons, List.length_append]
      have := ih ls'
      have := hg x
      omega

theorem itemsOf_length_le (sec : List Char) : (itemsOf sec).length ≤ 15 := by
  unfold itemsOf
  exact take_bind_length_le _ (fun ol => List.length_take_le 5 _) 3 _

theorem countQ_le_length (items : List (List Char)) : countQ items ≤ items.length := by
  unfold countQ
  calc ((items.map cleanItem).filter qLen).length ≤ (items.map cleanItem).length :=
        List.length_filter_le _ _
    _ = items.length := List.length_map _ _

theorem parse_examples_le (html w : List Char) (r : DefinitionRecord)
    (h : r ∈ parse_definitions html w) : r.examples.length ≤ 2 := by
  rcases mem_parse_shape html w r h with ⟨k, item, hk⟩ | ⟨k, p, hk⟩
  · rw [hk]
    exact List.length_take_le 2 _
  · rw [hk]
    exact Nat.zero_le 2

/-- **C1, counterexample.** The claim "every record has a non-empty
`meaning`" is false: a section-1 list item whose cleaned text starts with
the separator glyph `◆` (here 15 characters long, passing the length
filter) yields a record whose `meaning` is the empty string. -/
theorem claim1_counterexample :
    ∃ r, r ∈ parse_definitions
        "<section data-mw-section-id=\"1\"><ol><li>◆abcdefghijklmn</li></ol></section>".toList
        [] ∧
      r.meaning = [] := by
  refine ⟨DefinitionRecord.mk 1 [] "определение".toList ["abcdefghijklmn".toList],
    ?_, rfl⟩
  decide

/-- **C1, amended.** For every markup input, every record returned by
`parse_definitions` has a `meaning` that is stripped of markup tags (no
substring of the shape `<`non-empty `>`-free body`>`) and has collapsed
whitespace (all whitespace is single isolated spaces); the `meaning` may
however be empty. -/
theorem claim1_amended (html w : List Char) (r : DefinitionRecord)
    (h : r ∈ parse_definitions html w) :
    TagFree r.meaning ∧ SpaceCollapsed r.meaning := by
  obtain ⟨hg, hwok⟩ := parse_meaning_clean html w r h
  exact ⟨tagFree_of_goodTags hg, spaceCollapsed_of_wsOK hwok⟩

/-- Witness for the amended C1 at a concrete parsed record. -/
theorem claim1_amended_witness :
    TagFree "A short meaning".toList ∧ SpaceCollapsed "A short meaning".toList :=
  claim1_amended
    "<section data-mw-section-id=\"1\"><ol><li>A short meaning◆Example one◆Example two</li></ol></section>".toList
    []
    (DefinitionRecord.mk 1 "A short meaning".toList "определение".toList
      ["Example one".toList, "Example two".toList])
    (by decide)

/-- **C4.** For every markup input the returned list has length at most 10. -/
theorem claim4 (html w : List Char) : (parse_definitions html w).length ≤ 10 :=
  List.length_take_le 10 _

/-- **C6.** On the given concrete markup, `parse_definitions` returns
exactly one record `{id: 1, meaning: "A short meaning",
partOfSpeech: "определение", examples: ["Example one", "Example two"]}`. -/
theorem claim6 :
    parse_definitions
        "<section data-mw-section-id=\"1\"><ol><li>A short meaning◆Example one◆Example two</li></ol></section>".toList
        [] =
      [DefinitionRecord.mk 1 "A short meaning".toList "определение".toList
        ["Example one".toList, "Example two".toList]] := by
  decide

/-- **C7.** Every returned `meaning` contains no substring of the form
`<` non-empty `>`-free body `>` (the shape the tag-stripping regex
`<[^>]+>` matches) and no two consecutive space characters. -/
theorem claim7 (html w : List Char) (r : DefinitionRecord)
    (h : r ∈ parse_definitions html w) :
    (∀ m : List Char, m ≠ [] → (∀ c ∈ m, c ≠ '>') →
        ¬ List.IsInfix ('<' :: (m ++ ['>'])) r.meaning) ∧
      ¬ List.IsInfix [' ', ' '] r.meaning := by
  obtain ⟨hg, hwok⟩ := parse_meaning_clean html w r h
  exact ⟨tagFree_of_goodTags hg, (spaceCollapsed_of_wsOK hwok).2⟩

/-- Witness for C7 at a concrete parsed record (a fallback paragraph). -/
theorem claim7_witness :
    (∀ m : List Char, m ≠ [] → (∀ c ∈ m, c ≠ '>') →
        ¬ List.IsInfix ('<' :: (m ++ ['>']))
          "abcdefghijabcdefghijabcdefghijabcde".toList) ∧
      ¬ List.IsInfix [' ', ' '] "abcdefghijabcdefghijabcdefghijabcde".toList :=
  claim7 "<p>abcdefghijabcdefghijabcdefghijabcde</p>".toList []
    (DefinitionRecord.mk 1 "abcdefghijabcdefghijabcdefghijabcde".toList [] [])
    (by decide)

/-- **C9.** `parse_definitions` is deterministic and its output does not
depend on the `word` argument. -/
theorem claim9 (html w1 w2 : List Char) :
    parse_definitions html w1 = parse_definitions html w2 ∧
      parse_definitions html w1 = parse_definitions html w1 :=
  ⟨rfl, rfl⟩

/-- **C10.** Splitting on `◆` always yields at least one segment (so taking
the first segment is always defined), and every returned record carries at
most 2 examples; the embedding itself is total by construction. -/
theorem claim10 :
    (∀ l : List Char, splitGlyph '◆' l ≠ []) ∧
      ∀ (html w : List Char) (r : DefinitionRecord),
        r ∈ parse_definitions html w → r.examples.length ≤ 2 :=
  ⟨fun l => splitGlyph_ne_nil '◆' l,
    fun html w r h => parse_examples_le html w r h⟩

/-- Witness for C10 at concrete inputs. -/
theorem claim10_witness :
    splitGlyph '◆' "x".toList ≠ [] ∧
      (DefinitionRecord.mk 1 [] "определение".toList
        ["abcdefghijklmn".toList]).examples.length ≤ 2 :=
  ⟨claim10.1 "x".toList,
    claim10.2
      "<section data-mw-section-id=\"1\"><ol><li>◆abcdefghijklmn</li></ol></section>".toList
      []
      (DefinitionRecord.mk 1 [] "определение".toList ["abcdefghijklmn".toList])
      (by decide)⟩

/-- **C2, counterexample.** The claim "the returned count equals the number
of qualifying list items (capped)" fails when no list item qualifies: here
the only section-1 item ("tiny") fails the length filter, so the
qualifying count is 0, yet the fallback paragraph path returns 1 record. -/
theorem claim2_counterexample :
    qualifyingCount
        "<section data-mw-section-id=\"1\"><ol><li>tiny</li></ol></section><p>abcdefghijabcdefghijabcdefghijabc</p>".toList
      = 0 ∧
    (parse_definitions
        "<section data-mw-section-id=\"1\"><ol><li>tiny</li></ol></section><p>abcdefghijabcdefghijabcdefghijabc</p>".toList
        []).length = 1 := by
  exact ⟨by decide, by decide⟩

/-- **C2, amended.** When at least one examined list item qualifies (the
items examined are the first 5 `<li>` of each of the first 3 `<ol>` of the
section-1 content, at most 15 in total), the number of returned records is
the number of qualifying items truncated to 10; when no item qualifies the
fallback may instead contribute one record. -/
theorem claim2_amended (html w : List Char) (h : 0 < qualifyingCount html) :
    (parse_definitions html w).length = min (qualifyingCount html) 10 ∧
      qualifyingCount html ≤ 15 := by
  constructor
  · have hlen := primaryPass_length html
    have hne : (primaryPass html).1 ≠ [] := by
      intro he
      rw [he] at hlen
      simp only [List.length_nil] at hlen
      omega
    have hrw : parse_definitions html w = ((primaryPass html).1).take 10 := by
      show (if (primaryPass html).1 = [] then
          fallbackScan (primaryPass html).2 ((pBlocks html).take 3)
        else (primaryPass html).1).take 10 = ((primaryPass html).1).take 10
      rw [if_neg hne]
    rw [hrw, List.length_take, hlen, Nat.min_comm]
  · unfold qualifyingCount consideredItems
    cases hs : sectionContent html with
    | none => simp [countQ]
    | some sec => exact le_trans (countQ_le_length _) (itemsOf_length_le sec)

/-- Witness for the amended C2 at a concrete markup with one qualifying
item. -/
theorem claim2_amended_witness :
    0 < qualifyingCount
        "<section data-mw-section-id=\"1\"><ol><li>A qualifying item</li></ol></section>".toList ∧
      ((parse_definitions
          "<section data-mw-section-id=\"1\"><ol><li>A qualifying item</li></ol></section>".toList
          []).length =
        min (qualifyingCount
          "<section data-mw-section-id=\"1\"><ol><li>A qualifying item</li></ol></section>".toList)
          10 ∧
        qualifyingCount
          "<section data-mw-section-id=\"1\"><ol><li>A qualifying item</li></ol></section>".toList
          ≤ 15) :=
  ⟨by decide, claim2_amended _ [] (by decide)⟩

/-- **C3.** When the primary path produced zero records, the result is
obtained by scanning only the first 3 paragraph blocks of the whole
document and accepting the first one whose cleaned length is strictly
between 30 and 300 characters, as a single record with empty
`partOfSpeech` and no examples; at most one fallback record is produced. -/
theorem claim3 (html w : List Char) (h : (primaryPass html).1 = []) :
    parse_definitions html w =
      ((((pBlocks html).take 3).map cleanItem).find?
          (fun c => decide (30 < c.length ∧ c.length < 300))).elim []
        (fun c => [DefinitionRecord.mk 1 c [] []]) ∧
      (parse_definitions html w).length ≤ 1 := by
  have hid := primaryPass_empty_id html h
  have hrw : parse_definitions html w =
      (fallbackScan 1 ((pBlocks html).take 3)).take 10 := by
    show (if (primaryPass html).1 = [] then
        fallbackScan (primaryPass html).2 ((pBlocks html).take 3)
      else (primaryPass html).1).take 10 = _
    rw [if_pos h, hid]
  rw [fallbackScan_eq_find] at hrw
  cases hf : ((((pBlocks html).take 3).map cleanItem).find?
      (fun c => decide (30 < c.length ∧ c.length < 300))) with
  | none =>
    rw [hf] at hrw
    refine ⟨by rw [hrw]; rfl, by rw [hrw]; exact Nat.zero_le 1⟩
  | some c =>
    rw [hf] at hrw
    refine ⟨by rw [hrw]; rfl, by rw [hrw]; exact Nat.le_refl 1⟩

/-- Witness for C3: the spec's example scenario, a 35-character `<p>` block
and no section-1 block. -/
theorem claim3_witness :
    parse_definitions "<p>abcdefghijabcdefghijabcdefghijabcde</p>".toList [] =
      ((((pBlocks "<p>abcdefghijabcdefghijabcdefghijabcde</p>".toList).take 3).map
            cleanItem).find?
          (fun c => decide (30 < c.length ∧ c.length < 300))).elim []
        (fun c => [DefinitionRecord.mk 1 c [] []]) ∧
      (parse_definitions "<p>abcdefghijabcdefghijabcdefghijabcde</p>".toList
        []).length ≤ 1 :=
  claim3 "<p>abcdefghijabcdefghijabcdefghijabcde</p>".toList [] (by decide)

/-- **C5.** Both length filters are strict on both ends: a primary-path
item whose cleaned text has exactly 10 or exactly 500 characters adds no
record, and a fallback paragraph whose cleaned text has exactly 30 or
exactly 300 characters is skipped. -/
theorem claim5 (acc : List DefinitionRecord × Nat) (def_id : Nat)
    (item p : List Char) (rest : List (List Char))
    (h1 : (cleanItem item).length = 10 ∨ (cleanItem item).length = 500)
    (h2 : (cleanItem p).length = 30 ∨ (cleanItem p).length = 300) :
    processLi acc item = acc ∧
      fallbackScan def_id (p :: rest) = fallbackScan def_id rest := by
  constructor
  · have hno : ¬ (10 < (cleanItem item).length ∧ (cleanItem item).length < 500) := by
      rcases h1 with h | h <;> omega
    simp [processLi, hno]
  · have hno : ¬ (30 < (cleanItem p).length ∧ (cleanItem p).length < 300) := by
      rcases h2 with h | h <;> omega
    simp [fallbackScan, hno]

/-- Witness for C5: a 10-character item and a 30-character paragraph are
both excluded. -/
theorem claim5_witness :
    processLi ([], 1) "abcdefghij".toList = ([], 1) ∧
      fallbackScan 1 ["abcdefghijabcdefghijabcdefghij".toList] =
        fallbackScan 1 [] :=
  claim5 ([], 1) 1 "abcdefghij".toList "abcdefghijabcdefghijabcdefghij".toList []
    (Or.inl (by decide)) (Or.inl (by decide))

/-- **C8.** For a GET request with a non-empty trimmed word whose fetch
succeeds, the handler answers 404 with the not-found error body exactly
when the extractor returns no records, and answers 200 with the word and
the definitions otherwise. -/
theorem claim8 (w html : List Char) (hw : stripList w ≠ []) :
    ((handler "GET".toList (some w) (FetchOutcome.success html) =
        Response.mk 404 (ResponseBody.err "Слово не найдено".toList)) ↔
      parse_definitions html (stripList w) = []) ∧
    (parse_definitions html (stripList w) ≠ [] →
      handler "GET".toList (some w) (FetchOutcome.success html) =
        Response.mk 200 (ResponseBody.payload (stripList w)
          (parse_definitions html (stripList w)))) := by
  have hrw : handler "GET".toList (some w) (FetchOutcome.success html) =
      (if parse_definitions html (stripList w) = [] then
        Response.mk 404 (ResponseBody.err "Слово не найдено".toList)
      else Response.mk 200 (ResponseBody.payload (stripList w)
        (parse_definitions html (stripList w)))) := by
    unfold handler
    rw [if_neg (by decide : ¬ ("GET".toList = "OPTIONS".toList))]
    rw [if_neg (by decide : ¬ ("GET".toList ≠ "GET".toList))]
    simp only [Option.getD_some]
    rw [if_neg hw]
  by_cases hp : parse_definitions html (stripList w) = []
  · rw [hrw, if_pos hp]
    exact ⟨⟨fun _ => hp, fun _ => rfl⟩, fun hne => absurd hp hne⟩
  · rw [hrw, if_neg hp]
    refine ⟨⟨fun heq => ?_, fun h0 => absurd h0 hp⟩, fun _ => rfl⟩
    have h200 := congrArg Response.statusCode heq
    simp at h200

/-- Witness for C8: empty markup parses to no records, so the handler
answers 404. -/
theorem claim8_witness :
    ((handler "GET".toList (some "x".toList) (FetchOutcome.success []) =
        Response.mk 404 (ResponseBody.err "Слово не найдено".toList)) ↔
      parse_definitions [] (stripList "x".toList) = []) ∧
    (parse_definitions [] (stripList "x".toList) ≠ [] →
      handler "GET".toList (some "x".toList) (FetchOutcome.success []) =
        Response.mk 200 (ResponseBody.payload (stripList "x".toList)
          (parse_definitions [] (stripList "x".toList)))) :=
  claim8 "x".toList [] (by decide)
